import Mathlib

/-!
Shallow embedding of the archive layer of the modtide repository
(src/archive/mod.rs, src/archive/raw.rs, src/archive/zip.rs).

Paths are modelled as byte lists (`List Nat`), faithful to the Rust code
which compares paths via `as_bytes()`.  Fallible operations return
`Except`/`Option`; a `panic!`/`unwrap` abort is modelled by a dedicated
outcome so that it is distinguishable from a returned error.
-/

namespace Modtide

/-- Byte-level ASCII lowercasing, as in `u8::to_ascii_lowercase`. -/
def lowerByte (b : Nat) : Nat := if 65 ≤ b ∧ b ≤ 90 then b + 32 else b

/-- Comparison of natural numbers as an `Ordering` (models `u8`/`usize` `cmp`). -/
def ncmp (a b : Nat) : Ordering := if a < b then .lt else if a = b then .eq else .gt

/-- The two entry kinds; the Rust `FileType` derives `Ord` with `Dir` declared first. -/
inductive FileType
  | Dir
  | File
deriving DecidableEq, Repr

/-- `FileType::cmp`: `Dir < File`. -/
def ftCmp : FileType → FileType → Ordering
  | .Dir, .Dir => .eq
  | .Dir, .File => .lt
  | .File, .Dir => .gt
  | .File, .File => .eq

/-- `str::split('/')` on the byte representation of a path (47 = `'/'`). -/
def splitSlash : List Nat → List (List Nat)
  | [] => [[]]
  | b :: rest =>
    if b = 47 then [] :: splitSlash rest
    else
      match splitSlash rest with
      | s :: ss => (b :: s) :: ss
      | [] => [[b]]

/-- The inner byte loop of `entry_cmp_`: lexicographic comparison of two
segments on ASCII-lowercased bytes, with the `Option::cmp` length tie-break. -/
def segCmp : List Nat → List Nat → Ordering
  | [], [] => .eq
  | [], _ :: _ => .lt
  | _ :: _, [] => .gt
  | a :: xs, b :: ys =>
    match ncmp (lowerByte a) (lowerByte b) with
    | .eq => segCmp xs ys
    | o => o

/-- The outer segment loop of `entry_cmp_`.  Returns the ordering at loop
exit, whether all compared segment pairs matched, and how many segment
pairs were examined (`checked`). -/
def walkSegs : List (List Nat) → List (List Nat) → Ordering × Bool × Nat
  | x :: xs, y :: ys =>
    match segCmp x y with
    | .eq =>
      let r := walkSegs xs ys
      (r.1, r.2.1, r.2.2 + 1)
    | o => (o, false, 1)
  | _, _ => (.eq, true, 0)

/-- Shallow embedding of `entry_cmp_` from `src/archive/mod.rs`. -/
def entry_cmp_ (ap : List Nat) (ak : FileType) (bp : List Nat) (bk : FileType) : Ordering :=
  let xs := splitSlash ap
  let ys := splitSlash bp
  let ac := xs.length
  let bc := ys.length
  let w := walkSegs xs ys
  let ord := w.1
  let pm := w.2.1
  let checked := w.2.2
  let count := ncmp ac bc
  let kind := ftCmp ak bk
  if count = .eq ∧ checked = ac then kind.then ord
  else if pm then count
  else if checked = ac ∨ checked = bc then
    let pr := match count with
      | .lt => ftCmp ak .Dir
      | .eq => ftCmp ak bk
      | .gt => ftCmp .Dir bk
    pr.then ord
  else ord.then count

/-- One (kind, path) entry, as `DirEntry` in the source. -/
structure DirEntry where
  kind : FileType
  path : List Nat
deriving DecidableEq, Repr

/-- `entry_cmp`, the comparator over entries. -/
def entry_cmp (a b : DirEntry) : Ordering := entry_cmp_ a.path a.kind b.path b.kind

/-- The `≤` relation induced by `entry_cmp`; `Vec::sort_by` is a stable sort
with respect to exactly this relation. -/
def entryLe (a b : DirEntry) : Prop := entry_cmp a b ≠ .gt

instance : DecidableRel entryLe := fun a b => by unfold entryLe; infer_instance

/-- A sorted entry collection plus consumed-path offset (`ArchiveList`). -/
structure ArchiveList where
  entries : List DirEntry
  offset : Nat
deriving DecidableEq, Repr

/-- `ArchiveList::new`: stable-sorts the entries by the comparator. -/
def ArchiveList.new (es : List DirEntry) : ArchiveList :=
  ⟨List.insertionSort entryLe es, 0⟩

/-- The adjacent-pair conflict scan in `ArchiveList::compose`: a pair of
consecutive entries with equal path strings but different kinds triggers
the `panic!`. -/
def hasConflict : List DirEntry → Bool
  | a :: b :: rest => (decide (b.kind ≠ a.kind) && decide (b.path = a.path)) || hasConflict (b :: rest)
  | _ => false

/-- Helper of `dedupAdj`: drops elements equal to the previously kept one. -/
def dedupAdjAfter (prev : DirEntry) : List DirEntry → List DirEntry
  | [] => []
  | b :: rest => if b = prev then dedupAdjAfter prev rest else b :: dedupAdjAfter b rest

/-- `Vec::dedup`: removes consecutive `==`-equal duplicates. -/
def dedupAdj : List DirEntry → List DirEntry
  | [] => []
  | a :: rest => a :: dedupAdjAfter a rest

/-- Shallow embedding of `ArchiveList::compose`; `none` models the
`panic!("conflict: ...")` abort. -/
def ArchiveList.compose (lists : List ArchiveList) : Option ArchiveList :=
  let es := (lists.map (fun l => l.entries)).flatten
  let sorted := List.insertionSort entryLe es
  if hasConflict sorted then none
  else some ⟨dedupAdj sorted, 0⟩

/-- Core loop of `slice::binary_search_by` (fuel-driven; `fuel = len` is
enough since the half-open range shrinks every round). -/
def bsearchAux (f : Nat → Ordering) : Nat → Nat → Nat → Except Nat Nat
  | 0, left, _ => .error left
  | fuel + 1, left, right =>
    if left < right then
      let mid := left + (right - left) / 2
      match f mid with
      | .lt => bsearchAux f fuel (mid + 1) right
      | .gt => bsearchAux f fuel left mid
      | .eq => .ok mid
    else .error left

/-- `slice::binary_search_by` over indices `0..len`. -/
def binarySearchBy (len : Nat) (f : Nat → Ordering) : Except Nat Nat :=
  bsearchAux f len 0 len

/-- `slice::partition_point`, implemented (as in Rust) via binary search. -/
def partitionPointBy (len : Nat) (pred : Nat → Bool) : Nat :=
  match binarySearchBy len (fun i => if pred i then .lt else .gt) with
  | .ok i => i
  | .error i => i

/-- Out-of-range placeholder for index accesses that the source guarantees
to be in bounds. -/
def dummyEntry : DirEntry := ⟨.File, []⟩

/-- Shallow embedding of `ArchiveList::list` (child-directory lookup). -/
def ArchiveList.listKey (l : ArchiveList) (key : List Nat) : Option ArchiveList :=
  let e := l.entries
  let o := l.offset
  match binarySearchBy e.length
      (fun i => entry_cmp_ ((e.getD i dummyEntry).path.drop o) (e.getD i dummyEntry).kind key .Dir) with
  | .ok start =>
    if (e.getD start dummyEntry).kind = .Dir then
      let tail := e.drop start
      let endIdx := start + partitionPointBy tail.length
        (fun i => (entry_cmp_ ((tail.getD i dummyEntry).path.drop o) (tail.getD i dummyEntry).kind key .Dir).isGE)
      let start2 := min endIdx (start + 1)
      some ⟨(e.take endIdx).drop start2, o + key.length + 1⟩
    else none
  | .error _ => none

/-- `Path::join` for the slash-normalized virtual paths used by the readers. -/
def pathJoin (a b : List Nat) : List Nat := a ++ 47 :: b

/-- The per-source path-remapping decision (`Prefix` in the source: `None`/`Mods`). -/
inductive Pfx
  | nothing
  | mods
deriving DecidableEq, Repr

/-- The bytes of `"mods"`. -/
def modsBytes : List Nat := [109, 111, 100, 115]

/-- `Prefix::prepend`: under `Mods`, `"mods/"` is inserted at the front of
every path and a `("mods", Dir)` parent entry is inserted at index 0. -/
def prependPfx : Pfx → ArchiveList → ArchiveList
  | .nothing, l => l
  | .mods, l => ⟨⟨.Dir, modsBytes⟩ :: l.entries.map (fun e => ⟨e.kind, modsBytes ++ 47 :: e.path⟩), l.offset⟩

/-- One iteration of the `ArchiveView::copy` dispatch loop: the directory the
loop lazily creates before invoking the reader (if any), and the destination
path handed to the reader. -/
structure CopyStep where
  lazyCreate : Option (List Nat)
  readerDest : List Nat
deriving DecidableEq, Repr

/-- The dispatch loop of `ArchiveView::copy`, threading the `mods_exists`
flag.  Note the source runs `fs::create_dir(&dest)` — the root destination —
inside the first-`Mods` branch, even though the reader destination is
`dest.join("mods")`. -/
def copyPlanGo (dest : List Nat) : Bool → List Pfx → List CopyStep
  | _, [] => []
  | modsExists, .nothing :: rest => ⟨none, dest⟩ :: copyPlanGo dest modsExists rest
  | modsExists, .mods :: rest =>
    if modsExists then ⟨none, pathJoin dest modsBytes⟩ :: copyPlanGo dest true rest
    else ⟨some dest, pathJoin dest modsBytes⟩ :: copyPlanGo dest true rest

/-- Destination routing for a full `ArchiveView::copy` call. -/
def copyPlan (dest : List Nat) (ps : List Pfx) : List CopyStep := copyPlanGo dest false ps

/-- The copy-relevant state of an `ArchiveView`: the `copied` flag and the
stored per-source decisions. -/
structure ViewSt where
  copied : Bool
  pfxs : List Pfx
deriving DecidableEq, Repr

/-- `ArchiveView::copy` up to spawning the worker: `assert!(!self.copied)` is
modelled as `none`; on success the flag is set, the stored decisions are
taken out (`mem::take`), and the per-source plan is produced. -/
def viewCopy (v : ViewSt) (dest : List Nat) : Option (ViewSt × List CopyStep) :=
  if v.copied then none
  else some (⟨true, []⟩, copyPlan dest v.pfxs)

/-- A parsed central-directory record (`ZipRecord`, without time/date). -/
structure ZRecord where
  crc : Nat
  deflate_size : Nat
  size : Nat
  zoffset : Nat
  attr : FileType
  name : List Nat
deriving DecidableEq, Repr

/-- `u32::MAX`, the aggregate-uncompressed-size ceiling. -/
def u32Max : Nat := 4294967295

/-- Errors shared by the reader operations; `canceled` is the distinguished
`WouldBlock` error produced by `Monitor::stopped`, `tooLarge` the
"zip output larger than supported" error. -/
inductive ArcErr
  | canceled
  | tooLarge
deriving DecidableEq, Repr

/-- `name.split_once('/')`: the first path segment when the name contains a
slash. -/
def rootSeg (name : List Nat) : Option (List Nat) :=
  if name.contains 47 then some (name.takeWhile (fun b => b != 47)) else none

/-- The record loop of `Zip::list`: per record, check the Monitor (modelled
as the sequence of values successive checks observe), add the declared
uncompressed size to the running total and fail when it exceeds `u32::MAX`,
synthesize a root directory entry from the first record, and push the
record's entry. -/
def zipListGo (mon : Nat → Bool) : Nat → Nat → Bool → List DirEntry → List ZRecord → Except ArcErr (List DirEntry)
  | _, _, _, acc, [] => .ok acc
  | i, total, first, acc, r :: rest =>
    if mon i then .error .canceled
    else
      let total := total + r.size
      if u32Max < total then .error .tooLarge
      else
        let acc := match first, rootSeg r.name with
          | true, some root => acc ++ [⟨.Dir, root⟩]
          | _, _ => acc
        zipListGo mon (i + 1) total false (acc ++ [⟨r.attr, r.name⟩]) rest

/-- `Zip::list` over the parsed central-directory records. -/
def zipList (mon : Nat → Bool) (records : List ZRecord) : Except ArcErr ArchiveList :=
  (zipListGo mon 0 0 true [] records).map (fun es => ArchiveList.new es)

/-- Filesystem effects emitted by the copy operations. -/
inductive FsOp
  | mkdir (p : List Nat)
  | copyFile (src : List Nat) (dst : List Nat)
  | writeFile (p : List Nat) (data : List Nat)
deriving DecidableEq, Repr

/-- The record loop of `Zip::copy`; `inflate` is the decompression oracle
giving each file record's actual decompressed bytes (`read_record`).  The
running total is taken over those actual byte counts, independently of the
listing pass. -/
def zipCopyGo (mon : Nat → Bool) (inflate : ZRecord → List Nat) (dest : List Nat) :
    Nat → Nat → Bool → List FsOp → List ZRecord → Except ArcErr (List FsOp)
  | _, _, _, ops, [] => .ok ops
  | i, total, first, ops, r :: rest =>
    if mon i then .error .canceled
    else
      let ops := match first, rootSeg r.name with
        | true, some root => ops ++ [FsOp.mkdir (pathJoin dest root)]
        | _, _ => ops
      match r.attr with
      | .Dir => zipCopyGo mon inflate dest (i + 1) total false (ops ++ [FsOp.mkdir (pathJoin dest r.name)]) rest
      | .File =>
        let data := inflate r
        let total := total + data.length
        if u32Max < total then .error .tooLarge
        else zipCopyGo mon inflate dest (i + 1) total false (ops ++ [FsOp.writeFile (pathJoin dest r.name) data]) rest

/-- `Zip::copy` over the parsed central-directory records. -/
def zipCopy (mon : Nat → Bool) (inflate : ZRecord → List Nat) (dest : List Nat)
    (records : List ZRecord) : Except ArcErr (List FsOp) :=
  zipCopyGo mon inflate dest 0 0 true [] records

/-- Sum of the declared uncompressed sizes of a record list. -/
def sumSizes (records : List ZRecord) : Nat := (records.map (fun r => r.size)).sum

/-- Sum of the actual decompressed byte counts of the file records. -/
def inflBytes (inflate : ZRecord → List Nat) : List ZRecord → Nat
  | [] => 0
  | r :: rest =>
    match r.attr with
    | .Dir => inflBytes inflate rest
    | .File => (inflate r).length + inflBytes inflate rest

/-- All running totals of declared sizes stay within the ceiling. -/
def sizesOk : Nat → List ZRecord → Bool
  | _, [] => true
  | total, r :: rest => (total + r.size ≤ u32Max) && sizesOk (total + r.size) rest

/-- All running totals of actual decompressed sizes stay within the ceiling. -/
def inflSizesOk (inflate : ZRecord → List Nat) : Nat → List ZRecord → Bool
  | _, [] => true
  | total, r :: rest =>
    match r.attr with
    | .Dir => inflSizesOk inflate total rest
    | .File => (total + (inflate r).length ≤ u32Max) && inflSizesOk inflate (total + (inflate r).length) rest

/-- A filesystem subtree, as seen by `RawDir`. -/
inductive FsTree
  | file (name : List Nat)
  | dir (name : List Nat) (children : List FsTree)

/-- Name of a node. -/
def fsName : FsTree → List Nat
  | .file n => n
  | .dir n _ => n

/-- Kind of a node. -/
def fsKind : FsTree → FileType
  | .file _ => .File
  | .dir _ _ => .Dir

mutual
/-- One round of the `RawDir::iter_all` loop: every entry of the current
directory is emitted (in `read_dir` order), then the pending-directory
stack is drained. -/
def walkFs (p : List Nat) (cs : List FsTree) : List (List Nat × FileType) :=
  cs.map (fun c => (pathJoin p (fsName c), fsKind c)) ++ walkRev p cs

/-- Draining the explicit `Vec` stack: directories were pushed in `read_dir`
order and are popped from the end, so later siblings are expanded first. -/
def walkRev (p : List Nat) : List FsTree → List (List Nat × FileType)
  | [] => []
  | .file _ :: rest => walkRev p rest
  | .dir n cs :: rest => walkRev p rest ++ walkFs (pathJoin p n) cs
end

/-- The full `(suffix, kind)` stream produced by `RawDir::iter_all`: the root
directory itself, then the stack-driven walk of its subtree. -/
def rawUnits (root : List Nat) (cs : List FsTree) : List (List Nat × FileType) :=
  (root, .Dir) :: walkFs root cs

mutual
/-- Specification-side enumeration: a node followed by its subtree, children
in `read_dir` order (plain preorder). -/
def preorderT (p : List Nat) : FsTree → List (List Nat × FileType)
  | .file n => [(pathJoin p n, .File)]
  | .dir n cs => (pathJoin p n, .Dir) :: preorderL (pathJoin p n) cs

/-- Preorder enumeration of a child list. -/
def preorderL (p : List Nat) : List FsTree → List (List Nat × FileType)
  | [] => []
  | c :: rest => preorderT p c ++ preorderL p rest
end

mutual
/-- Number of filesystem objects in a subtree. -/
def sizeT : FsTree → Nat
  | .file _ => 1
  | .dir _ cs => 1 + sizeL cs

/-- Number of filesystem objects in a child list. -/
def sizeL : List FsTree → Nat
  | [] => 0
  | c :: rest => sizeT c + sizeL rest
end

/-- Depth of a virtual path: number of `'/'` separators. -/
def depthOf (p : List Nat) : Nat := p.count 47

/-- `RawDir::list`: the Monitor is checked before each emitted entry is
recorded; the resulting entries are sorted by `ArchiveList::new`. -/
def rawListGo (mon : Nat → Bool) : Nat → List (List Nat × FileType) → Except ArcErr (List DirEntry)
  | _, [] => .ok []
  | i, (p, k) :: rest =>
    if mon i then .error .canceled
    else
      match rawListGo mon (i + 1) rest with
      | .ok es => .ok (⟨k, p⟩ :: es)
      | .error e => .error e

/-- `RawDir::list` over a modelled subtree. -/
def rawList (mon : Nat → Bool) (root : List Nat) (cs : List FsTree) : Except ArcErr ArchiveList :=
  (rawListGo mon 0 (rawUnits root cs)).map (fun es => ArchiveList.new es)

/-- `RawDir::copy`: the Monitor is checked before each entry; directories
become `create_dir`, files become `fs::copy`, all joined under `dest`. -/
def rawCopyGo (mon : Nat → Bool) (dest : List Nat) : Nat → List (List Nat × FileType) → Except ArcErr (List FsOp)
  | _, [] => .ok []
  | i, (p, k) :: rest =>
    if mon i then .error .canceled
    else
      let op := match k with
        | .Dir => FsOp.mkdir (pathJoin dest p)
        | .File => FsOp.copyFile p (pathJoin dest p)
      match rawCopyGo mon dest (i + 1) rest with
      | .ok ops => .ok (op :: ops)
      | .error e => .error e

/-- `RawDir::copy` over a modelled subtree. -/
def rawCopy (mon : Nat → Bool) (dest : List Nat) (root : List Nat) (cs : List FsTree) : Except ArcErr (List FsOp) :=
  rawCopyGo mon dest 0 (rawUnits root cs)

/-- The outcomes of parsing the central directory (`Zip::records`): a named
returned error, an `unwrap` panic (abnormal termination), or the parsed
records. -/
inductive ZipParseErr
  | eof
  | badMagic
  | unsupportedVersion
  | unsupportedFlag
  | unsupportedMethod
  | badDisk
  | unsupportedInternalAttr
  | unknownFileType
  | eofName
  | nonAsciiName
deriving DecidableEq, Repr

/-- Result of `Zip::records` parsing. -/
inductive RecOut
  | failed (e : ZipParseErr)
  | panicked
  | parsed (records : List ZRecord)
deriving DecidableEq, Repr

/-- Byte at index `i` (all reads the source performs are in bounds, guarded
by the length check). -/
def byteAt (data : List Nat) (i : Nat) : Nat := data.getD i 0

/-- `u16::from_le_bytes` at offset `i`. -/
def le16 (data : List Nat) (i : Nat) : Nat := byteAt data i + 256 * byteAt data (i + 1)

/-- `u32::from_le_bytes` at offset `i`. -/
def le32 (data : List Nat) (i : Nat) : Nat := le16 data i + 65536 * le16 data (i + 2)

/-- A UTF-8 continuation byte. -/
def contByte (b : Nat) : Bool := decide (128 ≤ b ∧ b ≤ 191)

/-- Whether a byte sequence is valid UTF-8, following the standard table
used by `std::str::from_utf8`. -/
def validUtf8 : List Nat → Bool
  | [] => true
  | b :: rest =>
    if b ≤ 127 then validUtf8 rest
    else if 194 ≤ b ∧ b ≤ 223 then
      match rest with
      | c :: rest2 => contByte c && validUtf8 rest2
      | [] => false
    else if 224 ≤ b ∧ b ≤ 239 then
      match rest with
      | c :: d :: rest2 =>
        (if b = 224 then decide (160 ≤ c ∧ c ≤ 191)
         else if b = 237 then decide (128 ≤ c ∧ c ≤ 159)
         else contByte c) && contByte d && validUtf8 rest2
      | _ => false
    else if 240 ≤ b ∧ b ≤ 244 then
      match rest with
      | c :: d :: e :: rest2 =>
        (if b = 240 then decide (144 ≤ c ∧ c ≤ 191)
         else if b = 244 then decide (128 ≤ c ∧ c ≤ 143)
         else contByte c) && contByte d && contByte e && validUtf8 rest2
      | _ => false
    else false

/-- `name.strip_suffix("/")`: drops one trailing slash if present. -/
def stripSlashSuffix (n : List Nat) : List Nat :=
  if n.getLast? = some 47 then n.dropLast else n

/-- Shallow embedding of the record loop of `Zip::records`: the checks in
source order; `std::str::from_utf8(..).unwrap()` on an invalid-UTF-8 name is
the `panicked` outcome, a valid-UTF-8 but non-ASCII name the
`nonAsciiName` error. -/
def zipRecords : Nat → List Nat → List ZRecord → RecOut
  | 0, _, acc => .parsed acc
  | n + 1, data, acc =>
    if data.length < 46 then .failed .eof
    else if ¬ (byteAt data 0 = 80 ∧ byteAt data 1 = 75 ∧ byteAt data 2 = 1 ∧ byteAt data 3 = 2) then
      .failed .badMagic
    else if 20 < le16 data 6 then .failed .unsupportedVersion
    else if ¬ (byteAt data 8 = 0 ∧ byteAt data 9 = 0) then .failed .unsupportedFlag
    else if ¬ ((byteAt data 10 = 0 ∧ byteAt data 11 = 0) ∨ (byteAt data 10 = 8 ∧ byteAt data 11 = 0)) then
      .failed .unsupportedMethod
    else if ¬ (byteAt data 34 = 0 ∧ byteAt data 35 = 0) then .failed .badDisk
    else if 1 < le16 data 36 then .failed .unsupportedInternalAttr
    else if ¬ (byteAt data 38 = 16 ∨ byteAt data 38 = 32) then .failed .unknownFileType
    else
      let ty : FileType := if byteAt data 38 = 16 then .Dir else .File
      let nameLen := le16 data 28
      let recordLen := 46 + nameLen + le16 data 30 + le16 data 32
      if data.length < recordLen then .failed .eofName
      else
        let nameBytes := (data.drop 46).take nameLen
        if ¬ validUtf8 nameBytes then .panicked
        else if ¬ nameBytes.all (fun b => b ≤ 127) then .failed .nonAsciiName
        else
          zipRecords n (data.drop recordLen)
            (acc ++ [⟨le32 data 16, le32 data 20, le32 data 24, le32 data 42, ty, stripSlashSuffix nameBytes⟩])

/-- The 28 literal bytes before the name-length field of a well-formed
stored-file central-directory record: magic, versions, flags, method
(store), time, date, crc, sizes. -/
def recHeadA : List Nat :=
  [80, 75, 1, 2, 0, 0, 20, 0, 0, 0, 0, 0, 0, 0, 0, 0, 0, 0, 0, 0, 0, 0, 0, 0, 0, 0, 0, 0]

/-- The 16 literal bytes after the name-length field: extra/comment lengths,
disk, internal attributes, external attributes (`0x20` = file), offset. -/
def recTailB : List Nat := [0, 0, 0, 0, 0, 0, 0, 0, 32, 0, 0, 0, 0, 0, 0, 0]

/-- A well-formed 46-byte record header carrying an arbitrary name. -/
def mkRecordBytes (name : List Nat) : List Nat :=
  recHeadA ++ ((name.length % 256) :: (name.length / 256) :: recTailB) ++ name

theorem ncmp_self (a : Nat) : ncmp a a = .eq := by simp [ncmp]

theorem ncmp_swap (a b : Nat) : ncmp a b = (ncmp b a).swap := by
  unfold ncmp
  rcases Nat.lt_trichotomy a b with h | h | h
  · rw [if_pos h, if_neg (by omega : ¬ b < a), if_neg (by omega : ¬ b = a)]; rfl
  · subst h
    rw [if_neg (by omega : ¬ a < a), if_pos rfl]; rfl
  · rw [if_neg (by omega : ¬ a < b), if_neg (by omega : ¬ a = b), if_pos h]; rfl

theorem ncmp_eq_iff (a b : Nat) : ncmp a b = .eq ↔ a = b := by
  unfold ncmp
  split
  · simp; omega
  · split
    · simp_all
    · simp_all

theorem ftCmp_self (k : FileType) : ftCmp k k = .eq := by cases k <;> rfl

theorem ftCmp_swap (a b : FileType) : ftCmp a b = (ftCmp b a).swap := by
  cases a <;> cases b <;> rfl

theorem then_swap (a b : Ordering) : (a.then b).swap = a.swap.then b.swap := by
  cases a <;> rfl

theorem then_eq (a : Ordering) : a.then .eq = a := by cases a <;> rfl

theorem swap_lt : Ordering.lt.swap = Ordering.gt := rfl

theorem swap_eq : Ordering.eq.swap = Ordering.eq := rfl

theorem swap_gt : Ordering.gt.swap = Ordering.lt := rfl

theorem segCmp_self (x : List Nat) : segCmp x x = .eq := by
  induction x with
  | nil => rfl
  | cons a xs ih => simp [segCmp, ncmp_self, ih]

theorem segCmp_swap (x y : List Nat) : segCmp x y = (segCmp y x).swap := by
  induction x generalizing y with
  | nil => cases y <;> rfl
  | cons a xs ih =>
    cases y with
    | nil => rfl
    | cons b ys =>
      simp only [segCmp]
      rw [ncmp_swap (lowerByte a) (lowerByte b)]
      cases ncmp (lowerByte b) (lowerByte a) <;> simp [Ordering.swap, ih ys]

theorem walkSegs_self (xs : List (List Nat)) : walkSegs xs xs = (.eq, true, xs.length) := by
  induction xs with
  | nil => rfl
  | cons x xs ih => simp [walkSegs, segCmp_self, ih]

theorem walkSegs_swap (xs ys : List (List Nat)) :
    walkSegs xs ys = ((walkSegs ys xs).1.swap, (walkSegs ys xs).2.1, (walkSegs ys xs).2.2) := by
  induction xs generalizing ys with
  | nil => cases ys <;> rfl
  | cons x xs ih =>
    cases ys with
    | nil => rfl
    | cons y ys =>
      simp only [walkSegs]
      rw [segCmp_swap x y]
      cases h : segCmp y x with
      | eq => simp [Ordering.swap, ih ys]
      | lt => simp [Ordering.swap]
      | gt => simp [Ordering.swap]

theorem entry_cmp_swap_ (ap : List Nat) (ak : FileType) (bp : List Nat) (bk : FileType) :
    entry_cmp_ ap ak bp bk = (entry_cmp_ bp bk ap ak).swap := by
  unfold entry_cmp_
  simp only
  rw [walkSegs_swap (splitSlash ap) (splitSlash bp),
    ncmp_swap (splitSlash ap).length (splitSlash bp).length]
  generalize walkSegs (splitSlash bp) (splitSlash ap) = w
  generalize (splitSlash ap).length = a
  generalize (splitSlash bp).length = b
  obtain ⟨o, pm, ch⟩ := w
  simp only
  cases hnc : ncmp b a with
  | eq =>
    have hab : b = a := (ncmp_eq_iff b a).mp hnc
    subst hab
    by_cases hcb : ch = b
    · simp [hcb, hnc, then_swap, swap_lt, swap_eq, swap_gt, ftCmp_swap ak bk]
    · cases pm <;>
        simp [hcb, hnc, then_swap, swap_lt, swap_eq, swap_gt, ftCmp_swap ak bk]
  | lt =>
    have hab : ¬ b = a := by
      intro h; subst h; rw [ncmp_self] at hnc; cases hnc
    by_cases hca : ch = a <;> by_cases hcb : ch = b <;>
      cases pm <;>
        simp [hca, hcb, hab, Ne.symm hab, hnc, then_swap, swap_lt, swap_eq, swap_gt,
          ftCmp_swap ak .Dir, ftCmp_swap .Dir bk, Or.comm]
  | gt =>
    have hab : ¬ b = a := by
      intro h; subst h; rw [ncmp_self] at hnc; cases hnc
    by_cases hca : ch = a <;> by_cases hcb : ch = b <;>
      cases pm <;>
        simp [hca, hcb, hab, Ne.symm hab, hnc, then_swap, swap_lt, swap_eq, swap_gt,
          ftCmp_swap ak .Dir, ftCmp_swap .Dir bk, Or.comm]

/-- C1 (amended): the path comparator is antisymmetric — `entry_cmp a b` is
always the reverse of `entry_cmp b a` — and sorting an already-sorted entry
list leaves it unchanged; the transitivity part of the claim fails (see the
counterexample), so the comparator is not a total order. -/
theorem c1_comparator_antisymm_sort_idempotent :
    (∀ a b : DirEntry, entry_cmp a b = (entry_cmp b a).swap) ∧
    (∀ es : List DirEntry, List.Sorted entryLe es → ArchiveList.new es = ⟨es, 0⟩) := by
  refine ⟨fun a b => entry_cmp_swap_ a.path a.kind b.path b.kind, fun es h => ?_⟩
  unfold ArchiveList.new
  rw [List.Sorted.insertionSort_eq h]

/-- Witness for C1 at a concrete sorted two-entry list. -/
theorem c1_witness :
    List.Sorted entryLe [DirEntry.mk .Dir [97], DirEntry.mk .File [98]] ∧
    ArchiveList.new [DirEntry.mk .Dir [97], DirEntry.mk .File [98]]
      = ⟨[DirEntry.mk .Dir [97], DirEntry.mk .File [98]], 0⟩ := by
  constructor
  · decide
  · exact c1_comparator_antisymm_sort_idempotent.2 _ (by decide)

/-- C1 counterexample: transitivity fails.  With byte 122 = `"z"`,
97 = `"a"`, 98 = `"b"`: `("z", Dir)` sorts before `("a", File)`,
`("a", File)` sorts before `("a/b", File)`, yet `("z", Dir)` sorts after
`("a/b", File)`. -/
theorem c1_counterexample :
    entry_cmp ⟨.Dir, [122]⟩ ⟨.File, [97]⟩ = .lt ∧
    entry_cmp ⟨.File, [97]⟩ ⟨.File, [97, 47, 98]⟩ = .lt ∧
    entry_cmp ⟨.Dir, [122]⟩ ⟨.File, [97, 47, 98]⟩ = .gt := by decide

/-- C2: evaluating `ArchiveList::list` at the spec's own example (paths
`"a"` Dir, `"a/b"` File, `"a/c"` File, `"z"` File).  `list("a")` returns a
sub-view that wrongly extends to the end of the list — it contains
`("z", File)` (whose length-1 path is even shorter than the advanced
offset 2) in addition to `"a/b"` and `"a/c"` — because the
`partition_point(is_ge)` predicate also holds for every entry sorted after
the `"a"` subtree.  `list("z")` correctly returns `None`. -/
theorem c2_list_eval :
    (ArchiveList.new [⟨.Dir, [97]⟩, ⟨.File, [97, 47, 98]⟩, ⟨.File, [97, 47, 99]⟩, ⟨.File, [122]⟩]).listKey [97]
      = some ⟨[⟨.File, [97, 47, 98]⟩, ⟨.File, [97, 47, 99]⟩, ⟨.File, [122]⟩], 2⟩ ∧
    (ArchiveList.new [⟨.Dir, [97]⟩, ⟨.File, [97, 47, 98]⟩, ⟨.File, [97, 47, 99]⟩, ⟨.File, [122]⟩]).listKey [122]
      = none := by decide

theorem entry_cmp_same_path (p : List Nat) (k k' : FileType) :
    entry_cmp_ p k p k' = ftCmp k k' := by
  unfold entry_cmp_
  simp [walkSegs_self, ncmp_self, then_eq]

theorem entry_cmp_mk_same (p : List Nat) (k k' : FileType) :
    entry_cmp ⟨k, p⟩ ⟨k', p⟩ = ftCmp k k' := entry_cmp_same_path p k k'

theorem lowerByte_eq_47 (b : Nat) : lowerByte b = 47 ↔ b = 47 := by
  unfold lowerByte
  split <;> omega

theorem splitSlash_ne_nil (p : List Nat) : splitSlash p ≠ [] := by
  cases p with
  | nil => simp [splitSlash]
  | cons b rest =>
    unfold splitSlash
    split
    · simp
    · split <;> simp

theorem splitSlash_map_lower (p : List Nat) :
    splitSlash (p.map lowerByte) = (splitSlash p).map (fun s => s.map lowerByte) := by
  induction p with
  | nil => rfl
  | cons b rest ih =>
    simp only [List.map_cons]
    unfold splitSlash
    by_cases h : b = 47
    · rw [if_pos (by simp [h, lowerByte]), if_pos h]
      simp [ih]
    · rw [if_neg (fun hc => h ((lowerByte_eq_47 b).mp hc)), if_neg h, ih]
      cases hs : splitSlash rest with
      | nil => exact absurd hs (splitSlash_ne_nil rest)
      | cons s ss => simp

theorem segCmp_eq_of_lower : ∀ {x y : List Nat},
    x.map lowerByte = y.map lowerByte → segCmp x y = .eq := by
  intro x
  induction x with
  | nil =>
    intro y h
    cases y with
    | nil => rfl
    | cons b ys => simp at h
  | cons a xs ih =>
    intro y h
    cases y with
    | nil => simp at h
    | cons b ys =>
      simp only [List.map_cons, List.cons.injEq] at h
      simp [segCmp, h.1, ncmp_self, ih h.2]

theorem walkSegs_of_lower : ∀ {xs ys : List (List Nat)},
    xs.map (fun s => s.map lowerByte) = ys.map (fun s => s.map lowerByte) →
    walkSegs xs ys = (.eq, true, xs.length) ∧ xs.length = ys.length := by
  intro xs
  induction xs with
  | nil =>
    intro ys h
    cases ys with
    | nil => exact ⟨rfl, rfl⟩
    | cons y ys => simp at h
  | cons x xs ih =>
    intro ys h
    cases ys with
    | nil => simp at h
    | cons y ys =>
      simp only [List.map_cons, List.cons.injEq] at h
      have h1 := segCmp_eq_of_lower h.1
      have h2 := ih h.2
      simp [walkSegs, h1, h2.1, h2.2]

theorem entry_cmp_of_lower {p q : List Nat} (k k' : FileType)
    (h : p.map lowerByte = q.map lowerByte) :
    entry_cmp_ p k q k' = ftCmp k k' := by
  have hsp : (splitSlash p).map (fun s => s.map lowerByte)
      = (splitSlash q).map (fun s => s.map lowerByte) := by
    rw [← splitSlash_map_lower, ← splitSlash_map_lower, h]
  obtain ⟨hw, hlen⟩ := walkSegs_of_lower hsp
  unfold entry_cmp_
  simp [hw, hlen, ncmp_self, then_eq]

/-- C3 (amended): the conflict `panic!` fires when the two disagreeing
entries are adjacent after the stable sort — in particular composing the two
singleton lists `[(p, Dir)]` and `[(p, File)]` always aborts — and composing
two singleton lists holding the identical entry deduplicates it to one copy.
In general an entry whose path compares equal (ASCII-case-insensitively) can
sit between the two conflicting entries and mask the conflict (see the
counterexample). -/
theorem c3_compose_conflict (p : List Nat) :
    ArchiveList.compose [⟨[⟨.Dir, p⟩], 0⟩, ⟨[⟨.File, p⟩], 0⟩] = none ∧
    (∀ k, ArchiveList.compose [⟨[⟨k, p⟩], 0⟩, ⟨[⟨k, p⟩], 0⟩] = some ⟨[⟨k, p⟩], 0⟩) := by
  constructor
  · have hle : entryLe ⟨.Dir, p⟩ ⟨.File, p⟩ := by
      simp [entryLe, entry_cmp_mk_same, ftCmp]
    unfold ArchiveList.compose
    simp [List.insertionSort, List.orderedInsert, hle, hasConflict, ftCmp]
  · intro k
    have hle : entryLe ⟨k, p⟩ ⟨k, p⟩ := by
      simp [entryLe, entry_cmp_mk_same, ftCmp_self]
    unfold ArchiveList.compose
    simp [List.insertionSort, List.orderedInsert, hle, hasConflict, dedupAdj, dedupAdjAfter, dedupAdjAfter]

/-- C3 counterexample: with paths `"x"` = `[120]` and `"X"` = `[88]`,
composing `[("x", Dir)]` with `[("X", File), ("x", File)]` does not abort
even though both lists mention path `"x"` with different kinds — the
case-variant `("X", File)` entry sits between the conflicting pair after
the stable sort; and composing `[("x", File)]` with
`[("X", File), ("x", File)]` keeps two copies of the identical
`("x", File)` entry because `dedup` only removes adjacent duplicates. -/
theorem c3_counterexample :
    ArchiveList.compose [⟨[⟨.Dir, [120]⟩], 0⟩, ⟨[⟨.File, [88]⟩, ⟨.File, [120]⟩], 0⟩]
      = some ⟨[⟨.Dir, [120]⟩, ⟨.File, [88]⟩, ⟨.File, [120]⟩], 0⟩ ∧
    ArchiveList.compose [⟨[⟨.File, [120]⟩], 0⟩, ⟨[⟨.File, [88]⟩, ⟨.File, [120]⟩], 0⟩]
      = some ⟨[⟨.File, [120]⟩, ⟨.File, [88]⟩, ⟨.File, [120]⟩], 0⟩ := by decide

/-- C10: conflict detection compares paths with exact equality while the
comparator is ASCII-case-insensitive: two entries whose paths are equal
ignoring ASCII case but not byte-identical, with different kinds, compare
as equal paths (`entry_cmp` on equal kinds is `eq`, and `Dir`/`File` only
tie-breaks), yet compose neither aborts nor deduplicates — both entries are
retained. -/
theorem c10_case_insensitive_no_conflict (p q : List Nat) (hne : p ≠ q)
    (hlow : p.map lowerByte = q.map lowerByte) :
    entry_cmp ⟨.File, p⟩ ⟨.File, q⟩ = .eq ∧
    ArchiveList.compose [⟨[⟨.Dir, p⟩], 0⟩, ⟨[⟨.File, q⟩], 0⟩]
      = some ⟨[⟨.Dir, p⟩, ⟨.File, q⟩], 0⟩ := by
  have hff := entry_cmp_of_lower (p := p) (q := q) .File .File hlow
  have hdf := entry_cmp_of_lower (p := p) (q := q) .Dir .File hlow
  refine ⟨hff, ?_⟩
  have hle : entryLe ⟨.Dir, p⟩ ⟨.File, q⟩ := by
    simp [entryLe, entry_cmp, hdf, ftCmp]
  unfold ArchiveList.compose
  simp [List.insertionSort, List.orderedInsert, hle, hasConflict, dedupAdj, dedupAdjAfter,
    Ne.symm hne, ftCmp]

/-- Witness for C10 at `p` = `"X"` = `[88]`, `q` = `"x"` = `[120]`. -/
theorem c10_witness :
    entry_cmp ⟨.File, [88]⟩ ⟨.File, [120]⟩ = .eq ∧
    ArchiveList.compose [⟨[⟨.Dir, [88]⟩], 0⟩, ⟨[⟨.File, [120]⟩], 0⟩]
      = some ⟨[⟨.Dir, [88]⟩, ⟨.File, [120]⟩], 0⟩ :=
  c10_case_insensitive_no_conflict [88] [120] (by decide) (by decide)

/-- C4: the `Mods` prefix transform prepends `"mods/"` to every listed path
and synthesizes a `("mods", Dir)` parent entry; but in `ArchiveView::copy`
the directory the loop lazily creates on the first `Mods` source is the
destination root itself (`fs::create_dir(&dest)` in the source), not the
`dest/mods` subdirectory that the reader is simultaneously pointed at. -/
theorem c4_mods_prefix_routing (l : ArchiveList) (dest : List Nat) :
    (∀ e ∈ l.entries, DirEntry.mk e.kind (modsBytes ++ 47 :: e.path) ∈ (prependPfx .mods l).entries) ∧
    DirEntry.mk .Dir modsBytes ∈ (prependPfx .mods l).entries ∧
    copyPlan dest [Pfx.mods] = [⟨some dest, pathJoin dest modsBytes⟩] ∧
    dest ≠ pathJoin dest modsBytes := by
  refine ⟨?_, ?_, rfl, ?_⟩
  · intro e he
    simp only [prependPfx, List.mem_cons, List.mem_map]
    right
    exact ⟨e, he, rfl⟩
  · simp [prependPfx]
  · intro h
    have hlen := congrArg List.length h
    simp [pathJoin, modsBytes] at hlen

/-- Witness for C4 at a one-entry list and destination `"d"`. -/
theorem c4_witness :
    DirEntry.mk .File (modsBytes ++ 47 :: [97]) ∈ (prependPfx .mods ⟨[⟨.File, [97]⟩], 0⟩).entries ∧
    DirEntry.mk .Dir modsBytes ∈ (prependPfx .mods ⟨[⟨.File, [97]⟩], 0⟩).entries ∧
    copyPlan [100] [Pfx.mods] = [⟨some [100], pathJoin [100] modsBytes⟩] ∧
    [100] ≠ pathJoin [100] modsBytes :=
  ⟨(c4_mods_prefix_routing ⟨[⟨.File, [97]⟩], 0⟩ [100]).1 ⟨.File, [97]⟩ (by decide),
    (c4_mods_prefix_routing ⟨[⟨.File, [97]⟩], 0⟩ [100]).2.1,
    (c4_mods_prefix_routing ⟨[⟨.File, [97]⟩], 0⟩ [100]).2.2.1,
    (c4_mods_prefix_routing ⟨[⟨.File, [97]⟩], 0⟩ [100]).2.2.2⟩

theorem sumSizes_cons (r : ZRecord) (rs : List ZRecord) :
    sumSizes (r :: rs) = r.size + sumSizes rs := by
  simp [sumSizes]

theorem zipListGo_tooLarge (mon : Nat → Bool) (hmon : ∀ i, mon i = false) :
    ∀ (rs : List ZRecord) (i total : Nat) (first : Bool) (acc : List DirEntry),
      total ≤ u32Max → u32Max < total + sumSizes rs →
      zipListGo mon i total first acc rs = .error .tooLarge := by
  intro rs
  induction rs with
  | nil =>
    intro i total first acc h1 h2
    simp [sumSizes] at h2
    omega
  | cons r rest ih =>
    intro i total first acc h1 h2
    rw [sumSizes_cons] at h2
    simp only [zipListGo, hmon i]
    by_cases hbig : u32Max < total + r.size
    · simp [hbig]
    · simp only [if_neg hbig, Bool.false_eq_true, if_false]
      exact ih (i + 1) (total + r.size) false _ (by omega) (by omega)

theorem inflBytes_cons_dir (inflate : ZRecord → List Nat) (r : ZRecord) (rs : List ZRecord)
    (h : r.attr = .Dir) : inflBytes inflate (r :: rs) = inflBytes inflate rs := by
  simp [inflBytes, h]

theorem inflBytes_cons_file (inflate : ZRecord → List Nat) (r : ZRecord) (rs : List ZRecord)
    (h : r.attr = .File) :
    inflBytes inflate (r :: rs) = (inflate r).length + inflBytes inflate rs := by
  simp [inflBytes, h]

theorem zipCopyGo_tooLarge (mon : Nat → Bool) (inflate : ZRecord → List Nat) (dest : List Nat)
    (hmon : ∀ i, mon i = false) :
    ∀ (rs : List ZRecord) (i total : Nat) (first : Bool) (ops : List FsOp),
      total ≤ u32Max → u32Max < total + inflBytes inflate rs →
      zipCopyGo mon inflate dest i total first ops rs = .error .tooLarge := by
  intro rs
  induction rs with
  | nil =>
    intro i total first ops h1 h2
    simp [inflBytes] at h2
    omega
  | cons r rest ih =>
    intro i total first ops h1 h2
    simp only [zipCopyGo, hmon i, Bool.false_eq_true, if_false]
    cases hattr : r.attr with
    | Dir =>
      rw [inflBytes_cons_dir inflate r rest hattr] at h2
      simp only [hattr]
      exact ih (i + 1) total false _ h1 h2
    | File =>
      rw [inflBytes_cons_file inflate r rest hattr] at h2
      simp only [hattr]
      by_cases hbig : u32Max < total + (inflate r).length
      · simp [hbig]
      · simp only [if_neg hbig]
        exact ih (i + 1) (total + (inflate r).length) false _ (by omega) (by omega)

/-- C5: with an unset Monitor, if a ZIP's declared uncompressed sizes sum
beyond the 4 GiB ceiling (`u32::MAX`), `Zip::list` fails with the
"too large" error — the listing model is defined without any decompression
oracle, so no member data is ever decompressed during listing — and
`Zip::copy` independently re-validates the same ceiling against the actual
decompressed byte counts supplied by its decompression oracle. -/
theorem c5_size_ceiling (mon : Nat → Bool) (hmon : ∀ i, mon i = false) :
    (∀ records, u32Max < sumSizes records → zipList mon records = .error .tooLarge) ∧
    (∀ (inflate : ZRecord → List Nat) (dest : List Nat) records,
      u32Max < inflBytes inflate records →
      zipCopy mon inflate dest records = .error .tooLarge) := by
  constructor
  · intro records h
    unfold zipList
    rw [zipListGo_tooLarge mon hmon records 0 0 true [] (by omega) (by omega)]
    rfl
  · intro inflate dest records h
    unfold zipCopy
    exact zipCopyGo_tooLarge mon inflate dest hmon records 0 0 true [] (by omega) (by omega)

/-- Witness for C5: one record declaring 2^32 bytes fails listing, and one
record actually inflating to 2^32 bytes fails copying. -/
theorem c5_witness :
    u32Max < sumSizes [⟨0, 0, 4294967296, 0, .File, [97]⟩] ∧
    zipList (fun _ => false) [⟨0, 0, 4294967296, 0, .File, [97]⟩] = .error .tooLarge ∧
    u32Max < inflBytes (fun _ => List.replicate 4294967296 0) [⟨0, 0, 4294967296, 0, .File, [97]⟩] ∧
    zipCopy (fun _ => false) (fun _ => List.replicate 4294967296 0) [100]
      [⟨0, 0, 4294967296, 0, .File, [97]⟩] = .error .tooLarge := by
  have h1 : u32Max < sumSizes [(⟨0, 0, 4294967296, 0, .File, [97]⟩ : ZRecord)] := by
    simp [sumSizes, u32Max]
  have hgen : ∀ (n : Nat) (r : ZRecord), r.attr = .File →
      inflBytes (fun _ => List.replicate n 0) [r] = n := by
    intro n r h
    rw [inflBytes_cons_file _ _ _ h, List.length_replicate]
    simp [inflBytes]
  have h2 : u32Max < inflBytes (fun _ => List.replicate 4294967296 0)
      [(⟨0, 0, 4294967296, 0, .File, [97]⟩ : ZRecord)] := by
    rw [hgen 4294967296 _ rfl]
    unfold u32Max
    omega
  exact ⟨h1, (c5_size_ceiling (fun _ => false) (fun _ => rfl)).1 _ h1,
    h2, (c5_size_ceiling (fun _ => false) (fun _ => rfl)).2 _ [100] _ h2⟩

theorem rawListGo_canceled (mon : Nat → Bool) :
    ∀ (us : List (List Nat × FileType)) (i j : Nat), i ≤ j → j < i + us.length →
      mon j = true → rawListGo mon i us = .error .canceled := by
  intro us
  induction us with
  | nil =>
    intro i j h1 h2 h3
    simp at h2
    omega
  | cons u rest ih =>
    intro i j h1 h2 h3
    obtain ⟨p, k⟩ := u
    cases hm : mon i with
    | true => simp [rawListGo, hm]
    | false =>
      have hij : i ≠ j := by
        intro h
        rw [h, h3] at hm
        cases hm
      have hrec := ih (i + 1) j (by omega) (by simp at h2; omega) h3
      simp [rawListGo, hm, hrec]

theorem rawCopyGo_canceled (mon : Nat → Bool) (dest : List Nat) :
    ∀ (us : List (List Nat × FileType)) (i j : Nat), i ≤ j → j < i + us.length →
      mon j = true → rawCopyGo mon dest i us = .error .canceled := by
  intro us
  induction us with
  | nil =>
    intro i j h1 h2 h3
    simp at h2
    omega
  | cons u rest ih =>
    intro i j h1 h2 h3
    obtain ⟨p, k⟩ := u
    cases hm : mon i with
    | true => simp [rawCopyGo, hm]
    | false =>
      have hij : i ≠ j := by
        intro h
        rw [h, h3] at hm
        cases hm
      have hrec := ih (i + 1) j (by omega) (by simp at h2; omega) h3
      simp [rawCopyGo, hm, hrec]

theorem zipListGo_canceled (mon : Nat → Bool) :
    ∀ (us : List ZRecord) (i total : Nat) (first : Bool) (acc : List DirEntry)
      (v : ZRecord) (vs : List ZRecord),
      mon (i + us.length) = true → sizesOk total us = true →
      zipListGo mon i total first acc (us ++ v :: vs) = .error .canceled := by
  intro us
  induction us with
  | nil =>
    intro i total first acc v vs h1 h2
    simp at h1
    simp [zipListGo, h1]
  | cons r rest ih =>
    intro i total first acc v vs h1 h2
    cases hm : mon i with
    | true => simp [zipListGo, hm]
    | false =>
      simp only [sizesOk, Bool.and_eq_true, decide_eq_true_eq] at h2
      have h1' : mon (i + 1 + rest.length) = true := by
        have he : i + 1 + rest.length = i + (r :: rest).length := by simp; omega
        rw [he]; exact h1
      simp only [List.cons_append, zipListGo, hm, Bool.false_eq_true, if_false,
        if_neg (show ¬ u32Max < total + r.size by omega)]
      exact ih (i + 1) (total + r.size) false _ v vs h1' h2.2

theorem zipCopyGo_canceled (mon : Nat → Bool) (inflate : ZRecord → List Nat) (dest : List Nat) :
    ∀ (us : List ZRecord) (i total : Nat) (first : Bool) (ops : List FsOp)
      (v : ZRecord) (vs : List ZRecord),
      mon (i + us.length) = true → inflSizesOk inflate total us = true →
      zipCopyGo mon inflate dest i total first ops (us ++ v :: vs) = .error .canceled := by
  intro us
  induction us with
  | nil =>
    intro i total first ops v vs h1 h2
    simp at h1
    simp [zipCopyGo, h1]
  | cons r rest ih =>
    intro i total first ops v vs h1 h2
    cases hm : mon i with
    | true => simp [zipCopyGo, hm]
    | false =>
      have h1' : mon (i + 1 + rest.length) = true := by
        have he : i + 1 + rest.length = i + (r :: rest).length := by simp; omega
        rw [he]; exact h1
      cases hattr : r.attr with
      | Dir =>
        simp only [inflSizesOk, hattr] at h2
        simp only [List.cons_append, zipCopyGo, hm, Bool.false_eq_true, if_false, hattr]
        exact ih (i + 1) total false _ v vs h1' h2
      | File =>
        simp only [inflSizesOk, hattr, Bool.and_eq_true, decide_eq_true_eq] at h2
        simp only [List.cons_append, zipCopyGo, hm, Bool.false_eq_true, if_false, hattr,
          if_neg (show ¬ u32Max < total + (inflate r).length by omega)]
        exact ih (i + 1) (total + (inflate r).length) false _ v vs h1' h2.2

/-- C6: the cancellation flag is never reset (monotone observations); once
it reads true at check index `k`, each of the four reader operations —
directory list/copy over any subtree with more than `k` entries, and ZIP
list/copy over any record stream whose cancel point is at index `k` (with
the size ceiling not hit earlier) — returns the distinguished canceled
error: the walk is never completed and no unit at or past the cancel point
is processed. -/
theorem c6_cancellation (mon : Nat → Bool) (k : Nat)
    (_hmono : ∀ i j, i ≤ j → mon i = true → mon j = true)
    (hk : mon k = true) :
    (∀ root cs, k < (rawUnits root cs).length → rawList mon root cs = .error .canceled) ∧
    (∀ dest root cs, k < (rawUnits root cs).length → rawCopy mon dest root cs = .error .canceled) ∧
    (∀ (us : List ZRecord) v vs, us.length = k → sizesOk 0 us = true →
      zipList mon (us ++ v :: vs) = .error .canceled) ∧
    (∀ (inflate : ZRecord → List Nat) dest (us : List ZRecord) v vs, us.length = k →
      inflSizesOk inflate 0 us = true →
      zipCopy mon inflate dest (us ++ v :: vs) = .error .canceled) := by
  refine ⟨?_, ?_, ?_, ?_⟩
  · intro root cs h
    unfold rawList
    rw [rawListGo_canceled mon (rawUnits root cs) 0 k (by omega) (by omega) hk]
    rfl
  · intro dest root cs h
    exact rawCopyGo_canceled mon dest (rawUnits root cs) 0 k (by omega) (by omega) hk
  · intro us v vs hlen hsz
    unfold zipList
    rw [zipListGo_canceled mon us 0 0 true [] v vs (by rw [Nat.zero_add, hlen]; exact hk) hsz]
    rfl
  · intro inflate dest us v vs hlen hsz
    unfold zipCopy
    exact zipCopyGo_canceled mon inflate dest us 0 0 true [] v vs
      (by rw [Nat.zero_add, hlen]; exact hk) hsz

/-- Witness for C6 with the flag set from the start (`k = 0`): every
operation cancels immediately on a nonempty input. -/
theorem c6_witness :
    rawList (fun _ => true) [114] [.file [97]] = .error .canceled ∧
    rawCopy (fun _ => true) [100] [114] [.file [97]] = .error .canceled ∧
    zipList (fun _ => true) ([] ++ ⟨0, 0, 0, 0, .File, [97]⟩ :: []) = .error .canceled ∧
    zipCopy (fun _ => true) (fun _ => []) [100] ([] ++ ⟨0, 0, 0, 0, .File, [97]⟩ :: [])
      = .error .canceled :=
  ⟨(c6_cancellation (fun _ => true) 0 (fun _ _ _ h => h) rfl).1 [114] [.file [97]]
      (by simp [rawUnits, walkFs, walkRev]),
    (c6_cancellation (fun _ => true) 0 (fun _ _ _ h => h) rfl).2.1 [100] [114] [.file [97]]
      (by simp [rawUnits, walkFs, walkRev]),
    (c6_cancellation (fun _ => true) 0 (fun _ _ _ h => h) rfl).2.2.1 [] ⟨0, 0, 0, 0, .File, [97]⟩ [] rfl rfl,
    (c6_cancellation (fun _ => true) 0 (fun _ _ _ h => h) rfl).2.2.2 (fun _ => []) [100] []
      ⟨0, 0, 0, 0, .File, [97]⟩ [] rfl rfl⟩

/-- C9: a second `copy` on the same view always trips the
`assert!(!self.copied)` precondition, whatever the destination argument —
the second call never reaches the dispatch loop. -/
theorem c9_double_copy (v : ViewSt) (d1 d2 : List Nat) (v2 : ViewSt) (plan : List CopyStep)
    (h : viewCopy v d1 = some (v2, plan)) : viewCopy v2 d2 = none := by
  unfold viewCopy at h ⊢
  by_cases hc : v.copied
  · rw [if_pos hc] at h
    cases h
  · rw [if_neg hc] at h
    simp only [Option.some.injEq, Prod.mk.injEq] at h
    rw [← h.1]
    rfl

/-- Witness for C9: a fresh view copies once, and the produced state refuses
a second copy. -/
theorem c9_witness :
    viewCopy ⟨false, []⟩ [100] = some (⟨true, []⟩, []) ∧
    viewCopy ⟨true, []⟩ [101] = none :=
  ⟨rfl, c9_double_copy ⟨false, []⟩ [100] [101] ⟨true, []⟩ [] rfl⟩

theorem mk_length (name : List Nat) : (mkRecordBytes name).length = 46 + name.length := by
  simp [mkRecordBytes, recHeadA, recTailB]; omega

theorem byteAt_mk_head (name : List Nat) (i : Nat) (h : i < 28) :
    byteAt (mkRecordBytes name) i = byteAt recHeadA i := by
  unfold mkRecordBytes byteAt
  rw [List.getD_append (recHeadA ++ (name.length % 256) :: (name.length / 256) :: recTailB)
    name 0 i (by simp [recHeadA, recTailB]; omega)]
  rw [List.getD_append recHeadA ((name.length % 256) :: (name.length / 256) :: recTailB)
    0 i (by simp [recHeadA]; omega)]

theorem byteAt_mk_28 (name : List Nat) :
    byteAt (mkRecordBytes name) 28 = name.length % 256 := by
  unfold mkRecordBytes byteAt
  rw [List.getD_append (recHeadA ++ (name.length % 256) :: (name.length / 256) :: recTailB)
    name 0 28 (by simp [recHeadA, recTailB])]
  rw [List.getD_append_right recHeadA ((name.length % 256) :: (name.length / 256) :: recTailB)
    0 28 (by simp [recHeadA])]
  simp [recHeadA]

theorem byteAt_mk_29 (name : List Nat) :
    byteAt (mkRecordBytes name) 29 = name.length / 256 := by
  unfold mkRecordBytes byteAt
  rw [List.getD_append (recHeadA ++ (name.length % 256) :: (name.length / 256) :: recTailB)
    name 0 29 (by simp [recHeadA, recTailB])]
  rw [List.getD_append_right recHeadA ((name.length % 256) :: (name.length / 256) :: recTailB)
    0 29 (by simp [recHeadA])]
  simp [recHeadA]

theorem byteAt_mk_tail (name : List Nat) (i : Nat) (h1 : 30 ≤ i) (h2 : i < 46) :
    byteAt (mkRecordBytes name) i = byteAt recTailB (i - 30) := by
  unfold mkRecordBytes byteAt
  rw [List.getD_append (recHeadA ++ (name.length % 256) :: (name.length / 256) :: recTailB)
    name 0 i (by simp [recHeadA, recTailB]; omega)]
  rw [List.getD_append_right recHeadA ((name.length % 256) :: (name.length / 256) :: recTailB)
    0 i (by simp [recHeadA]; omega)]
  rw [show i - recHeadA.length = (i - 30) + 2 by simp [recHeadA]; omega]
  simp [List.getD_cons_succ]

theorem drop46_mk (name : List Nat) : (mkRecordBytes name).drop 46 = name := by
  unfold mkRecordBytes
  rw [show (46 : Nat)
      = (recHeadA ++ (name.length % 256) :: (name.length / 256) :: recTailB).length by
    simp [recHeadA, recTailB]]
  exact List.drop_left _ _

theorem le16_mk_6 (name : List Nat) : le16 (mkRecordBytes name) 6 = 20 := by
  unfold le16
  rw [byteAt_mk_head name 6 (by omega), byteAt_mk_head name 7 (by omega)]
  rfl

theorem le16_mk_28 (name : List Nat) : le16 (mkRecordBytes name) 28 = name.length := by
  unfold le16
  rw [byteAt_mk_28, byteAt_mk_29]
  exact Nat.mod_add_div name.length 256

theorem le16_mk_30 (name : List Nat) : le16 (mkRecordBytes name) 30 = 0 := by
  unfold le16
  rw [byteAt_mk_tail name 30 (by omega) (by omega), byteAt_mk_tail name 31 (by omega) (by omega)]
  rfl

theorem le16_mk_32 (name : List Nat) : le16 (mkRecordBytes name) 32 = 0 := by
  unfold le16
  rw [byteAt_mk_tail name 32 (by omega) (by omega), byteAt_mk_tail name 33 (by omega) (by omega)]
  rfl

theorem le16_mk_36 (name : List Nat) : le16 (mkRecordBytes name) 36 = 0 := by
  unfold le16
  rw [byteAt_mk_tail name 36 (by omega) (by omega), byteAt_mk_tail name 37 (by omega) (by omega)]
  rfl

/-- C7 (amended): for a central-directory record whose other fields are
well-formed, a name that is valid UTF-8 but not ASCII-only is rejected with
the explicit non-ASCII error, while a name that is not valid UTF-8 makes
`Zip::records` abort abnormally — the `std::str::from_utf8(..).unwrap()`
panics instead of returning an error. -/
theorem c7_nonascii_names (name : List Nat) (_hlen : name.length < 65536) :
    (validUtf8 name = false → zipRecords 1 (mkRecordBytes name) [] = .panicked) ∧
    (validUtf8 name = true → name.all (fun b => b ≤ 127) = false →
      zipRecords 1 (mkRecordBytes name) [] = .failed .nonAsciiName) := by
  have h0 : byteAt (mkRecordBytes name) 0 = 80 := by rw [byteAt_mk_head name 0 (by omega)]; rfl
  have h1 : byteAt (mkRecordBytes name) 1 = 75 := by rw [byteAt_mk_head name 1 (by omega)]; rfl
  have h2 : byteAt (mkRecordBytes name) 2 = 1 := by rw [byteAt_mk_head name 2 (by omega)]; rfl
  have h3 : byteAt (mkRecordBytes name) 3 = 2 := by rw [byteAt_mk_head name 3 (by omega)]; rfl
  have h8 : byteAt (mkRecordBytes name) 8 = 0 := by rw [byteAt_mk_head name 8 (by omega)]; rfl
  have h9 : byteAt (mkRecordBytes name) 9 = 0 := by rw [byteAt_mk_head name 9 (by omega)]; rfl
  have h10 : byteAt (mkRecordBytes name) 10 = 0 := by rw [byteAt_mk_head name 10 (by omega)]; rfl
  have h11 : byteAt (mkRecordBytes name) 11 = 0 := by rw [byteAt_mk_head name 11 (by omega)]; rfl
  have h34 : byteAt (mkRecordBytes name) 34 = 0 := by
    rw [byteAt_mk_tail name 34 (by omega) (by omega)]; rfl
  have h35 : byteAt (mkRecordBytes name) 35 = 0 := by
    rw [byteAt_mk_tail name 35 (by omega) (by omega)]; rfl
  have h38 : byteAt (mkRecordBytes name) 38 = 32 := by
    rw [byteAt_mk_tail name 38 (by omega) (by omega)]; rfl
  have hred : zipRecords 1 (mkRecordBytes name) [] =
      (if ¬ validUtf8 name then RecOut.panicked
       else if ¬ name.all (fun b => b ≤ 127) then RecOut.failed .nonAsciiName
       else RecOut.parsed [⟨le32 (mkRecordBytes name) 16, le32 (mkRecordBytes name) 20,
         le32 (mkRecordBytes name) 24, le32 (mkRecordBytes name) 42, .File,
         stripSlashSuffix name⟩]) := by
    rw [show (1 : Nat) = 0 + 1 from rfl]
    rw [zipRecords]
    rw [mk_length, h0, h1, h2, h3, le16_mk_6, h8, h9, h10, h11, h34, h35, le16_mk_36, h38,
      le16_mk_28, le16_mk_30, le16_mk_32, drop46_mk]
    norm_num [List.take_length, zipRecords]
  constructor
  · intro hbad
    rw [hred, if_pos (by simp [hbad])]
  · intro hok hna
    rw [hred, if_neg (by simp [hok]), if_pos (by simp [hna])]

/-- Witness for C7 at the two-byte UTF-8 name `"é"` = `[195, 169]` (valid
UTF-8, not ASCII): parsing rejects it with the non-ASCII error. -/
theorem c7_witness :
    validUtf8 [195, 169] = true ∧
    List.all [195, 169] (fun b => b ≤ 127) = false ∧
    zipRecords 1 (mkRecordBytes [195, 169]) [] = .failed .nonAsciiName :=
  ⟨by decide, by decide,
    (c7_nonascii_names [195, 169] (by decide)).2 (by decide) (by decide)⟩

/-- C7 counterexample: the single byte `0xFF` is not valid UTF-8; parsing a
record whose name is `[255]` panics (the `unwrap` aborts) instead of
returning an error result, so "rejected with a returned error for every
byte sequence" fails. -/
theorem c7_counterexample :
    zipRecords 1 (mkRecordBytes [255]) [] = RecOut.panicked := by decide

theorem walkFs_perm (p : List Nat) (cs : List FsTree) :
    (walkFs p cs).Perm (preorderL p cs) := by
  match cs with
  | [] => simp [walkFs, walkRev, preorderL]
  | c :: rest =>
    have hrest : (walkFs p rest).Perm (preorderL p rest) := walkFs_perm p rest
    rw [walkFs, List.map_cons]
    rw [preorderL]
    cases c with
    | file n =>
      simp only [walkRev]
      rw [List.cons_append, ← walkFs]
      simp only [preorderT, fsName, fsKind, List.cons_append, List.nil_append]
      exact List.Perm.cons _ hrest
    | dir n cs' =>
      have hc : (walkFs (pathJoin p n) cs').Perm (preorderL (pathJoin p n) cs') :=
        walkFs_perm (pathJoin p n) cs'
      simp only [walkRev]
      rw [List.cons_append, ← List.append_assoc, ← walkFs]
      simp only [preorderT, fsName, fsKind, List.cons_append]
      exact List.Perm.cons _ ((List.perm_append_comm).trans (List.Perm.append hc hrest))
termination_by sizeOf cs

mutual
theorem preorderT_length (p : List Nat) : ∀ t : FsTree, (preorderT p t).length = sizeT t
  | .file n => by simp [preorderT, sizeT]
  | .dir n cs => by
    simp [preorderT, sizeT, preorderL_length (pathJoin p n) cs]
    omega

theorem preorderL_length (p : List Nat) : ∀ cs : List FsTree, (preorderL p cs).length = sizeL cs
  | [] => by simp [preorderL, sizeL]
  | c :: rest => by
    simp [preorderL, sizeL, preorderT_length p c, preorderL_length p rest]
end

/-- C8 (amended): the stack-driven walk of `RawDir::iter_all` emits exactly
one entry per filesystem object — the emitted stream is a permutation of
the root entry followed by the preorder enumeration of the subtree, and its
length is one plus the number of objects below the root.  The claim's
"breadth-first" is wrong: the explicit `Vec` stack is popped from the end,
which yields a depth-first (late-sibling-first) expansion, and the
counterexample shows the emitted depths are not monotone. -/
theorem c8_raw_walk (root : List Nat) (cs : List FsTree) :
    (rawUnits root cs).Perm ((root, FileType.Dir) :: preorderL root cs) ∧
    (rawUnits root cs).length = 1 + sizeL cs := by
  have hp : (walkFs root cs).Perm (preorderL root cs) := walkFs_perm root cs
  constructor
  · exact List.Perm.cons _ hp
  · simp [rawUnits, hp.length_eq, preorderL_length root cs]
    omega

/-- C8 counterexample: for the tree `r/{a/{b}, d/{e/{f}}}` the emitted depth
sequence is `[0, 1, 1, 2, 3, 2]` — the depth-3 entry `r/d/e/f` is emitted
before the depth-2 entry `r/a/b` — so the walk is not breadth-first. -/
theorem c8_counterexample :
    ((rawUnits [114] [.dir [97] [.file [98]], .dir [100] [.dir [101] [.file [102]]]]).map
        (fun u => depthOf u.1)) = [0, 1, 1, 2, 3, 2] ∧
    ¬ List.Sorted (· ≤ ·)
        ((rawUnits [114] [.dir [97] [.file [98]], .dir [100] [.dir [101] [.file [102]]]]).map
          (fun u => depthOf u.1)) := by
  have h : ((rawUnits [114] [.dir [97] [.file [98]], .dir [100] [.dir [101] [.file [102]]]]).map
      (fun u => depthOf u.1)) = [0, 1, 1, 2, 3, 2] := by
    simp [rawUnits, walkFs, walkRev, pathJoin, fsName, fsKind, depthOf]
  refine ⟨h, ?_⟩
  rw [h]
  decide

end Modtide
